import Mathlib

set_option autoImplicit false

namespace Spec2Proof

/-!
Shallow embedding of the key-value container family:
`Entry` (src/src/Entry.py), the abstract dictionary contract `BaseDict`
(src/src/BaseDict.py) as a record of the four storage primitives plus
derived operations, the hash-backed `MyDict` (src/src/MyDict.py), the
sorted `MySortedDict` (src/src/MySortedDict.py), and the LRU cache
`DictCache` (src/src/DictCache.py).  Keys and values are specialised to
`Nat`; key comparison/equality is the `Nat` order, mirroring the key-only
`__eq__`/`__lt__`/`__hash__` of `Entry`.  Python exceptions (`KeyError`,
`IndexError`) are modelled with `Except Unit`.
-/

/-- An `Entry` is a key/value pair; equality, hashing and ordering in the
source are computed from the key only (`src/src/Entry.py`). -/
structure Entry where
  key : Nat
  value : Nat
deriving DecidableEq, Repr

/-- The four abstract storage primitives of `BaseDict`
(`_get_entry`, `_add_entry`, `_remove_entry`, `_entries`). -/
structure DictImpl (σ : Type) where
  getEntry : σ → Nat → Option Entry
  addEntry : σ → Entry → σ
  removeEntry : σ → Entry → σ
  entries : σ → List Entry

/-- `BaseDict._value_or_default`: the entry value if present, else the
default.  `Option Nat` stands for Python's `Optional[V]`. -/
def valueOrDefault (entry : Option Entry) (default : Option Nat) : Option Nat :=
  match entry with
  | some e => some e.value
  | none => default

variable {σ : Type}

/-- `BaseDict.__setitem__`: look up the key; if an entry exists remove it;
then add a fresh entry with the new value. -/
def setItem (D : DictImpl σ) (s : σ) (k v : Nat) : σ :=
  match D.getEntry s k with
  | some e => D.addEntry (D.removeEntry s e) ⟨k, v⟩
  | none => D.addEntry s ⟨k, v⟩

/-- `BaseDict.__getitem__`: value of the stored entry, `KeyError` if absent. -/
def getItem (D : DictImpl σ) (s : σ) (k : Nat) : Except Unit Nat :=
  match D.getEntry s k with
  | some e => .ok e.value
  | none => .error ()

/-- `BaseDict.get`: value or default, never raises. -/
def getD (D : DictImpl σ) (s : σ) (k : Nat) (default : Option Nat) : Option Nat :=
  valueOrDefault (D.getEntry s k) default

/-- `BaseDict.setdefault` with a supplied default value: if the key is
missing insert `(key, default)`; return `_value_or_default(entry, default)`
computed from the original lookup, paired with the new state. -/
def setdefault (D : DictImpl σ) (s : σ) (k d : Nat) : Nat × σ :=
  let entry := D.getEntry s k
  let s' : σ :=
    match entry with
    | none => D.addEntry s ⟨k, d⟩
    | some _ => s
  ((valueOrDefault entry (some d)).getD d, s')

/-- `BaseDict.pop`: `default = none` models the absent-default sentinel.
Raises `KeyError` when the key is missing and no default was supplied;
otherwise removes the entry if present and returns its value, or the
default. -/
def pop (D : DictImpl σ) (s : σ) (k : Nat) (default : Option Nat) :
    Except Unit (Nat × σ) :=
  match D.getEntry s k, default with
  | none, none => .error ()
  | none, some d => .ok (d, s)
  | some e, _ => .ok (e.value, D.removeEntry s e)

/-- `BaseDict.update`: identical body to `__setitem__` in the source. -/
def update (D : DictImpl σ) (s : σ) (k v : Nat) : σ :=
  match D.getEntry s k with
  | some e => D.addEntry (D.removeEntry s e) ⟨k, v⟩
  | none => D.addEntry s ⟨k, v⟩

/-- `BaseDict.items`. -/
def items (D : DictImpl σ) (s : σ) : List (Nat × Nat) :=
  (D.entries s).map (fun e => (e.key, e.value))

/-- `BaseDict.keys`. -/
def keysOf (D : DictImpl σ) (s : σ) : List Nat :=
  (D.entries s).map (fun e => e.key)

/-- `BaseDict.values`. -/
def valuesOf (D : DictImpl σ) (s : σ) : List Nat :=
  (D.entries s).map (fun e => e.value)

/-- `__len__` of `MyDict`/`MySortedDict`: size of the underlying storage. -/
def dictLen (D : DictImpl σ) (s : σ) : Nat :=
  (D.entries s).length

/-- Key membership, i.e. "the dictionary holds an entry for `k`". -/
def keyMem (s : List Entry) (k : Nat) : Bool :=
  s.any (fun e => e.key == k)

/-! ### MyDict (hash strategy, src/src/MyDict.py)

The Python storage is a `set[Entry]` whose element equality and hash are
key-only, so the set can never hold two entries with equal keys.  We model
the set as a list of entries (iteration order is immaterial to the claims
proved here). -/

/-- `MyDict._get_entry`: probe membership by key, return the stored entry. -/
def hashGetEntry (s : List Entry) (k : Nat) : Option Entry :=
  s.find? (fun e => e.key == k)

/-- `MyDict._add_entry` (`set.add`): a no-op when an entry with an equal
key is already stored, otherwise the entry is added. -/
def hashAddEntry (s : List Entry) (e : Entry) : List Entry :=
  if s.any (fun x => x.key == e.key) then s else s ++ [e]

/-- `MyDict._remove_entry` (`set.remove`): removes the stored entry equal
(by key) to the argument. -/
def hashRemoveEntry (s : List Entry) (e : Entry) : List Entry :=
  s.eraseP (fun x => x.key == e.key)

/-- The hash strategy as an instance of the dictionary contract. -/
def hashImpl : DictImpl (List Entry) :=
  ⟨hashGetEntry, hashAddEntry, hashRemoveEntry, id⟩

/-! ### MySortedDict (sorted strategy, src/src/MySortedDict.py)

The Python storage is a `SortedSet[Entry]` ordered by the key-only entry
order.  We model it as a list kept in strictly increasing key order. -/

/-- `SortedSet.bisect_left(Entry(key, None))` on the sorted storage: index
of the first stored entry not below the probe key. -/
def bisectLeft : List Entry → Nat → Nat
  | [], _ => 0
  | e :: rest, k => if e.key < k then bisectLeft rest k + 1 else 0

/-- `SortedSet.bisect_right(Entry(key, None))` on the sorted storage: index
after the last stored entry not above the probe key. -/
def bisectRight : List Entry → Nat → Nat
  | [], _ => 0
  | e :: rest, k => if e.key ≤ k then bisectRight rest k + 1 else 0

/-- `MySortedDict._get_entry`: bisect to the leftmost candidate position,
and return the entry there when its key matches. -/
def sortedGetEntry (s : List Entry) (k : Nat) : Option Entry :=
  match s[bisectLeft s k]? with
  | some e => if e.key == k then some e else none
  | none => none

/-- `MySortedDict._add_entry` (`SortedSet.add`): insert at the sorted
position; a no-op when an entry with an equal key is already stored. -/
def sortedAddEntry : List Entry → Entry → List Entry
  | [], e => [e]
  | x :: rest, e =>
    if e.key < x.key then e :: x :: rest
    else if e.key = x.key then x :: rest
    else x :: sortedAddEntry rest e

/-- `MySortedDict._remove_entry` (`SortedSet.remove`): removes the stored
entry equal (by key) to the argument. -/
def sortedRemoveEntry (s : List Entry) (e : Entry) : List Entry :=
  s.eraseP (fun x => x.key == e.key)

/-- The sorted strategy as an instance of the dictionary contract. -/
def sortedImpl : DictImpl (List Entry) :=
  ⟨sortedGetEntry, sortedAddEntry, sortedRemoveEntry, id⟩

/-- `MySortedDict.peekitem`: Python-style indexing with negative indices;
`IndexError` when the index falls outside `[-size, size)`. -/
def peekitem (s : List Entry) (ind : Int) : Except Unit (Nat × Nat) :=
  if ind < -(s.length : Int) ∨ (s.length : Int) ≤ ind then .error ()
  else
    match s[(if ind < 0 then (s.length : Int) + ind else ind).toNat]? with
    | some e => .ok (e.key, e.value)
    | none => .error ()

/-- The strictly-increasing-keys invariant of the sorted storage. -/
def sortedKeys (s : List Entry) : Prop :=
  List.Pairwise (fun a b => a.key < b.key) s

instance : DecidablePred sortedKeys := fun s =>
  inferInstanceAs (Decidable (List.Pairwise _ s))

/-! ### Public operation sequences on a dictionary -/

/-- One public mutating operation of the dictionary API; an indexed write
is `set`. -/
inductive DictOp where
  | set (k v : Nat)
  | upd (k v : Nat)
  | setdefault (k d : Nat)
  | pop (k : Nat) (default : Option Nat)
deriving DecidableEq, Repr

/-- Apply one public operation to a state; a raising `pop` leaves the state
unchanged (the exception is raised before any mutation). -/
def dictStep (D : DictImpl σ) (s : σ) : DictOp → σ
  | .set k v => setItem D s k v
  | .upd k v => update D s k v
  | .setdefault k d => (setdefault D s k d).2
  | .pop k default =>
    match pop D s k default with
    | .ok (_, s') => s'
    | .error _ => s

/-- Run a sequence of public operations from a given state. -/
def dictRun (D : DictImpl σ) (s : σ) (ops : List DictOp) : σ :=
  ops.foldl (dictStep D) s

/-! ### DictCache (src/src/DictCache.py)

The cache subclasses `OrderedDict`; we model its contents as a list of
key/value pairs in insertion/recency order, oldest (least recently used)
first, most recently used last.  `maxsize` is an unvalidated `int`, hence
`Int` here. -/

/-- The `DictCache` state: ordered contents plus the `maxsize` attribute. -/
structure Cache where
  data : List (Nat × Nat)
  maxsize : Int
deriving DecidableEq, Repr

/-- `key in self` on the ordered dict. -/
def cacheMem (d : List (Nat × Nat)) (k : Nat) : Bool :=
  d.any (fun p => p.1 == k)

/-- `OrderedDict.__setitem__` (via `super()`): update the value in place
when the key exists, else append at the most-recent end. -/
def odSet : List (Nat × Nat) → Nat → Nat → List (Nat × Nat)
  | [], k, v => [(k, v)]
  | p :: rest, k, v =>
    if p.1 = k then (k, v) :: rest else p :: odSet rest k v

/-- `OrderedDict.move_to_end(key)`: move the stored pair for `key` to the
most-recent end (always called with the key present in the source). -/
def moveToEnd (d : List (Nat × Nat)) (k : Nat) : List (Nat × Nat) :=
  match d.find? (fun p => p.1 == k) with
  | none => d
  | some p => d.eraseP (fun q => q.1 == k) ++ [p]

/-- `DictCache.__getitem__`: `KeyError` when absent; otherwise return the
value and mark the key most recently used. -/
def cacheGet (c : Cache) (k : Nat) : Except Unit (Nat × Cache) :=
  match c.data.find? (fun p => p.1 == k) with
  | none => .error ()
  | some p => .ok (p.2, ⟨moveToEnd c.data k, c.maxsize⟩)

/-- `DictCache.__setitem__`: record whether the key existed
(`exists = key in self`), store the value, move the key to the most-recent
end, and, when the key was new and the size now exceeds `maxsize`, pop the
least-recent item (`popitem(last=False)`). -/
def cacheSet (c : Cache) (k v : Nat) : Cache :=
  if cacheMem c.data k = false ∧
      c.maxsize < ((moveToEnd (odSet c.data k v) k).length : Int) then
    ⟨(moveToEnd (odSet c.data k v) k).tail, c.maxsize⟩
  else
    ⟨moveToEnd (odSet c.data k v) k, c.maxsize⟩

/-- One public cache operation. -/
inductive CacheOp where
  | read (k : Nat)
  | write (k v : Nat)
deriving DecidableEq, Repr

/-- Apply one cache operation; a raising read leaves the state unchanged. -/
def cacheStep (c : Cache) : CacheOp → Cache
  | .read k =>
    match cacheGet c k with
    | .ok (_, c') => c'
    | .error _ => c
  | .write k v => cacheSet c k v

/-- `DictCache(maxsize)` freshly constructed, then a sequence of reads and
writes applied to it. -/
def cacheRun (m : Int) (ops : List CacheOp) : Cache :=
  ops.foldl cacheStep ⟨[], m⟩

/-! ### Helper lemmas -/

/-- The keys-are-pairwise-distinct invariant (automatic for the Python
`set`/`SortedSet` storage, whose element equality is key-only). -/
def keysNodup (s : List Entry) : Prop :=
  (s.map Entry.key).Nodup

instance : DecidablePred keysNodup := fun s =>
  inferInstanceAs (Decidable (List.Nodup _))

theorem keyMem_false_iff (s : List Entry) (k : Nat) :
    keyMem s k = false ↔ ∀ e ∈ s, e.key ≠ k := by
  simp [keyMem]

theorem keyMem_true_iff (s : List Entry) (k : Nat) :
    keyMem s k = true ↔ ∃ e ∈ s, e.key = k := by
  simp [keyMem]

theorem hashGetEntry_some {s : List Entry} {k : Nat} {e : Entry}
    (h : hashGetEntry s k = some e) : e ∈ s ∧ e.key = k := by
  refine ⟨List.mem_of_find?_eq_some h, ?_⟩
  have := List.find?_some h
  simpa using this

theorem hashGetEntry_none_iff (s : List Entry) (k : Nat) :
    hashGetEntry s k = none ↔ keyMem s k = false := by
  unfold hashGetEntry
  rw [List.find?_eq_none, keyMem_false_iff]
  simp

theorem find?_append_of_none {α : Type} (p : α → Bool) (l₁ l₂ : List α)
    (h : l₁.find? p = none) : (l₁ ++ l₂).find? p = l₂.find? p := by
  induction l₁ with
  | nil => rfl
  | cons a l ih =>
    rw [List.find?_cons] at h
    cases hp : p a with
    | true => simp [hp] at h
    | false =>
      simp only [hp] at h
      simp [List.find?_cons, hp, ih h]

theorem eraseP_key_not_mem {s : List Entry} (k : Nat) (h : keysNodup s) :
    keyMem (s.eraseP (fun x => x.key == k)) k = false := by
  induction s with
  | nil => rfl
  | cons e rest ih =>
    have hrest : keysNodup rest := (List.nodup_cons.mp h).2
    have hk : e.key ∉ rest.map Entry.key := (List.nodup_cons.mp h).1
    by_cases he : e.key = k
    · rw [List.eraseP_cons_of_pos (by simpa using he)]
      rw [keyMem_false_iff]
      intro x hx hxk
      exact hk (by rw [he, ← hxk]; exact List.mem_map_of_mem Entry.key hx)
    · rw [List.eraseP_cons_of_neg (by simpa using he)]
      have h2 := ih hrest
      rw [keyMem_false_iff] at h2 ⊢
      intro x hx
      rcases List.mem_cons.mp hx with rfl | hx'
      · exact he
      · exact h2 x hx'

theorem hashAddEntry_absent {s : List Entry} {e : Entry}
    (h : keyMem s e.key = false) : hashAddEntry s e = s ++ [e] := by
  unfold hashAddEntry
  rw [if_neg]
  simp only [keyMem] at h
  simp [h]

theorem hashGetEntry_append_self (s : List Entry) (e : Entry)
    (h : keyMem s e.key = false) :
    hashGetEntry (s ++ [e]) e.key = some e := by
  unfold hashGetEntry
  rw [find?_append_of_none _ s [e]
    (by show hashGetEntry s e.key = none; rw [hashGetEntry_none_iff]; exact h)]
  simp

/-- After `__setitem__` on the hash dictionary, the stored entry for the
written key is exactly the written pair. -/
theorem hash_set_getEntry (s : List Entry) (k v : Nat) (h : keysNodup s) :
    hashGetEntry (setItem hashImpl s k v) k = some ⟨k, v⟩ := by
  unfold setItem
  cases h0 : hashImpl.getEntry s k with
  | none =>
    show hashGetEntry (hashAddEntry s ⟨k, v⟩) k = some ⟨k, v⟩
    have habs : keyMem s k = false := (hashGetEntry_none_iff s k).mp h0
    rw [hashAddEntry_absent habs]
    exact hashGetEntry_append_self s ⟨k, v⟩ habs
  | some e =>
    show hashGetEntry (hashAddEntry (hashRemoveEntry s e) ⟨k, v⟩) k = some ⟨k, v⟩
    obtain ⟨hmem, hkey⟩ := hashGetEntry_some h0
    have habs : keyMem (hashRemoveEntry s e) k = false := by
      unfold hashRemoveEntry
      rw [hkey]
      exact eraseP_key_not_mem k h
    rw [hashAddEntry_absent habs]
    exact hashGetEntry_append_self _ ⟨k, v⟩ habs

theorem keysNodup_append_absent {s : List Entry} {e : Entry}
    (h : keysNodup s) (habs : keyMem s e.key = false) :
    keysNodup (s ++ [e]) := by
  unfold keysNodup at *
  rw [List.map_append, List.nodup_append]
  refine ⟨h, by simp, ?_⟩
  intro a ha hb
  simp only [List.mem_map] at ha
  obtain ⟨x, hx, hxa⟩ := ha
  subst hxa
  simp only [List.map_cons, List.map_nil, List.mem_singleton] at hb
  exact absurd hb ((keyMem_false_iff s e.key).mp habs x hx)

theorem keysNodup_eraseP {s : List Entry} (p : Entry → Bool)
    (h : keysNodup s) : keysNodup (s.eraseP p) := by
  unfold keysNodup at *
  exact h.sublist ((List.eraseP_sublist s).map Entry.key)

/-- `__setitem__` preserves key uniqueness on the hash dictionary. -/
theorem hash_setItem_nodup (s : List Entry) (k v : Nat) (h : keysNodup s) :
    keysNodup (setItem hashImpl s k v) := by
  unfold setItem
  cases h0 : hashImpl.getEntry s k with
  | none =>
    show keysNodup (hashAddEntry s ⟨k, v⟩)
    have habs : keyMem s k = false := (hashGetEntry_none_iff s k).mp h0
    rw [hashAddEntry_absent habs]
    exact keysNodup_append_absent h habs
  | some e =>
    show keysNodup (hashAddEntry (hashRemoveEntry s e) ⟨k, v⟩)
    obtain ⟨hmem, hkey⟩ := hashGetEntry_some h0
    have h1 : keysNodup (hashRemoveEntry s e) := keysNodup_eraseP _ h
    have habs : keyMem (hashRemoveEntry s e) k = false := by
      unfold hashRemoveEntry
      rw [hkey]
      exact eraseP_key_not_mem k h
    rw [hashAddEntry_absent habs]
    exact keysNodup_append_absent h1 habs

/-- `__setitem__` on a key already present keeps the hash dictionary's
size unchanged. -/
theorem hash_setItem_len_present (s : List Entry) (k v : Nat)
    (h : keysNodup s) (hp : keyMem s k = true) :
    (setItem hashImpl s k v).length = s.length := by
  unfold setItem
  cases h0 : hashImpl.getEntry s k with
  | none =>
    exfalso
    have := (hashGetEntry_none_iff s k).mp h0
    rw [hp] at this
    simp at this
  | some e =>
    show (hashAddEntry (hashRemoveEntry s e) ⟨k, v⟩).length = s.length
    obtain ⟨hmem, hkey⟩ := hashGetEntry_some h0
    have hlen : (hashRemoveEntry s e).length = s.length - 1 :=
      List.length_eraseP_of_mem hmem (by simp [hkey])
    have hpos : 0 < s.length := List.length_pos.mpr (List.ne_nil_of_mem hmem)
    have habs : keyMem (hashRemoveEntry s e) k = false := by
      unfold hashRemoveEntry
      rw [hkey]
      exact eraseP_key_not_mem k h
    rw [hashAddEntry_absent (by rw [show (⟨k, v⟩ : Entry).key = k from rfl]; exact habs)]
    rw [List.length_append, hlen]
    simp
    omega

theorem sortedKeys_keysNodup {s : List Entry} (hs : sortedKeys s) :
    keysNodup s := by
  unfold keysNodup List.Nodup
  rw [List.pairwise_map]
  exact hs.imp (fun h => by omega)

theorem sortedKeys_eraseP {s : List Entry} (p : Entry → Bool)
    (hs : sortedKeys s) : sortedKeys (s.eraseP p) :=
  hs.sublist (List.eraseP_sublist s)

/-- On a sorted store, the bisect-then-probe lookup of
`MySortedDict._get_entry` agrees with a linear search by key. -/
theorem sortedGetEntry_eq_find (s : List Entry) (k : Nat) (hs : sortedKeys s) :
    sortedGetEntry s k = s.find? (fun x => x.key == k) := by
  induction s with
  | nil => rfl
  | cons e rest ih =>
    have hhead := (List.pairwise_cons.mp hs).1
    have htail := (List.pairwise_cons.mp hs).2
    by_cases h : e.key < k
    · simp only [sortedGetEntry, bisectLeft, if_pos h, List.getElem?_cons_succ]
      rw [List.find?_cons_of_neg _ (by simp; omega)]
      rw [← ih htail]
      rfl
    · simp only [sortedGetEntry, bisectLeft, if_neg h, List.getElem?_cons_zero]
      by_cases he : e.key = k
      · rw [List.find?_cons_of_pos _ (by simp [he])]
        simp [he]
      · rw [List.find?_cons_of_neg _ (by simp [he])]
        have hrest : rest.find? (fun x => x.key == k) = none := by
          rw [List.find?_eq_none]
          intro x hx
          have := hhead x hx
          simp
          omega
        rw [hrest]
        simp [he]

theorem sortedGetEntry_none_iff (s : List Entry) (k : Nat) (hs : sortedKeys s) :
    sortedGetEntry s k = none ↔ keyMem s k = false := by
  rw [sortedGetEntry_eq_find s k hs, List.find?_eq_none, keyMem_false_iff]
  simp

theorem sortedGetEntry_some {s : List Entry} {k : Nat} {e : Entry}
    (hs : sortedKeys s) (h : sortedGetEntry s k = some e) :
    e ∈ s ∧ e.key = k := by
  rw [sortedGetEntry_eq_find s k hs] at h
  refine ⟨List.mem_of_find?_eq_some h, ?_⟩
  have := List.find?_some h
  simpa using this

theorem mem_sortedAddEntry {s : List Entry} {e x : Entry}
    (h : x ∈ sortedAddEntry s e) : x ∈ s ∨ x = e := by
  induction s with
  | nil =>
    simp only [sortedAddEntry, List.mem_singleton] at h
    exact Or.inr h
  | cons y rest ih =>
    by_cases h1 : e.key < y.key
    · simp only [sortedAddEntry, if_pos h1, List.mem_cons] at h
      rcases h with rfl | h
      · exact Or.inr rfl
      · exact Or.inl (List.mem_cons.mpr h)
    · by_cases h2 : e.key = y.key
      · simp only [sortedAddEntry, if_neg h1, if_pos h2] at h
        exact Or.inl h
      · simp only [sortedAddEntry, if_neg h1, if_neg h2, List.mem_cons] at h
        rcases h with rfl | h
        · exact Or.inl (List.mem_cons_self x rest)
        · rcases ih h with h3 | h3
          · exact Or.inl (List.mem_cons_of_mem _ h3)
          · exact Or.inr h3

/-- `SortedSet.add` preserves the strict key ordering. -/
theorem sortedAddEntry_sorted {s : List Entry} (e : Entry)
    (hs : sortedKeys s) : sortedKeys (sortedAddEntry s e) := by
  induction s with
  | nil => simp [sortedAddEntry, sortedKeys]
  | cons y rest ih =>
    have hhead := (List.pairwise_cons.mp hs).1
    have htail := (List.pairwise_cons.mp hs).2
    by_cases h1 : e.key < y.key
    · simp only [sortedAddEntry, if_pos h1]
      refine List.pairwise_cons.mpr ⟨?_, hs⟩
      intro b hb
      rcases List.mem_cons.mp hb with rfl | hb'
      · exact h1
      · exact Nat.lt_trans h1 (hhead b hb')
    · by_cases h2 : e.key = y.key
      · simp only [sortedAddEntry, if_neg h1, if_pos h2]
        exact hs
      · simp only [sortedAddEntry, if_neg h1, if_neg h2]
        refine List.pairwise_cons.mpr ⟨?_, ih htail⟩
        intro b hb
        rcases mem_sortedAddEntry hb with h3 | rfl
        · exact hhead b h3
        · omega

/-- After a genuine `SortedSet.add` (the key was absent), looking the key
up by linear search finds exactly the added entry. -/
theorem sortedAddEntry_find_self {s : List Entry} (e : Entry)
    (h : keyMem s e.key = false) :
    (sortedAddEntry s e).find? (fun x => x.key == e.key) = some e := by
  induction s with
  | nil => simp [sortedAddEntry]
  | cons y rest ih =>
    have hy : y.key ≠ e.key := (keyMem_false_iff _ _).mp h y (List.mem_cons_self y rest)
    have hrest : keyMem rest e.key = false := by
      rw [keyMem_false_iff] at h ⊢
      intro x hx
      exact h x (List.mem_cons_of_mem _ hx)
    by_cases h1 : e.key < y.key
    · simp [sortedAddEntry, if_pos h1]
    · have h2 : e.key ≠ y.key := fun hc => hy hc.symm
      simp only [sortedAddEntry, if_neg h1, if_neg h2]
      rw [List.find?_cons_of_neg _ (by simp [hy])]
      exact ih hrest

theorem sortedAddEntry_len_absent {s : List Entry} (e : Entry)
    (h : keyMem s e.key = false) :
    (sortedAddEntry s e).length = s.length + 1 := by
  induction s with
  | nil => rfl
  | cons y rest ih =>
    have hy : y.key ≠ e.key := (keyMem_false_iff _ _).mp h y (List.mem_cons_self y rest)
    have hrest : keyMem rest e.key = false := by
      rw [keyMem_false_iff] at h ⊢
      intro x hx
      exact h x (List.mem_cons_of_mem _ hx)
    by_cases h1 : e.key < y.key
    · simp [sortedAddEntry, if_pos h1]
    · have h2 : e.key ≠ y.key := fun hc => hy hc.symm
      simp only [sortedAddEntry, if_neg h1, if_neg h2, List.length_cons]
      rw [ih hrest]

/-- `__setitem__` preserves the sorted-keys invariant. -/
theorem sorted_setItem_sorted (s : List Entry) (k v : Nat)
    (hs : sortedKeys s) : sortedKeys (setItem sortedImpl s k v) := by
  unfold setItem
  cases h0 : sortedImpl.getEntry s k with
  | none =>
    exact sortedAddEntry_sorted _ hs
  | some e =>
    exact sortedAddEntry_sorted _ (sortedKeys_eraseP _ hs)

/-- After `__setitem__` on the sorted dictionary, the stored entry for the
written key is exactly the written pair. -/
theorem sorted_set_getEntry (s : List Entry) (k v : Nat) (hs : sortedKeys s) :
    sortedGetEntry (setItem sortedImpl s k v) k = some ⟨k, v⟩ := by
  have hres : sortedKeys (setItem sortedImpl s k v) := sorted_setItem_sorted s k v hs
  rw [sortedGetEntry_eq_find _ _ hres]
  cases h0 : sortedImpl.getEntry s k with
  | none =>
    have hstep : setItem sortedImpl s k v = sortedAddEntry s ⟨k, v⟩ := by
      unfold setItem
      rw [h0]
      rfl
    rw [hstep]
    have habs : keyMem s k = false := (sortedGetEntry_none_iff s k hs).mp h0
    exact sortedAddEntry_find_self ⟨k, v⟩ habs
  | some e =>
    have hstep : setItem sortedImpl s k v
        = sortedAddEntry (sortedRemoveEntry s e) ⟨k, v⟩ := by
      unfold setItem
      rw [h0]
      rfl
    rw [hstep]
    obtain ⟨hmem, hkey⟩ := sortedGetEntry_some hs h0
    have habs : keyMem (sortedRemoveEntry s e) k = false := by
      unfold sortedRemoveEntry
      rw [hkey]
      exact eraseP_key_not_mem k (sortedKeys_keysNodup hs)
    exact sortedAddEntry_find_self ⟨k, v⟩ habs

/-- `__setitem__` on a key already present keeps the sorted dictionary's
size unchanged. -/
theorem sorted_setItem_len_present (s : List Entry) (k v : Nat)
    (hs : sortedKeys s) (hp : keyMem s k = true) :
    (setItem sortedImpl s k v).length = s.length := by
  unfold setItem
  cases h0 : sortedImpl.getEntry s k with
  | none =>
    exfalso
    have := (sortedGetEntry_none_iff s k hs).mp h0
    rw [hp] at this
    simp at this
  | some e =>
    obtain ⟨hmem, hkey⟩ := sortedGetEntry_some hs h0
    have hlen : (sortedRemoveEntry s e).length = s.length - 1 :=
      List.length_eraseP_of_mem hmem (by simp [hkey])
    have hpos : 0 < s.length := List.length_pos.mpr (List.ne_nil_of_mem hmem)
    have habs : keyMem (sortedRemoveEntry s e) k = false := by
      unfold sortedRemoveEntry
      rw [hkey]
      exact eraseP_key_not_mem k (sortedKeys_keysNodup hs)
    show (sortedAddEntry (sortedRemoveEntry s e) ⟨k, v⟩).length = s.length
    rw [sortedAddEntry_len_absent ⟨k, v⟩ habs, hlen]
    omega

theorem hashAddEntry_nodup {s : List Entry} (e : Entry) (h : keysNodup s) :
    keysNodup (hashAddEntry s e) := by
  cases hc : keyMem s e.key with
  | true =>
    have heq : hashAddEntry s e = s := by
      unfold hashAddEntry
      unfold keyMem at hc
      simp [hc]
    rw [heq]
    exact h
  | false =>
    rw [hashAddEntry_absent hc]
    exact keysNodup_append_absent h hc

theorem setdefault_snd (D : DictImpl σ) (s : σ) (k d : Nat) :
    (setdefault D s k d).2 =
      match D.getEntry s k with
      | none => D.addEntry s ⟨k, d⟩
      | some _ => s := rfl

theorem dictStep_pop (D : DictImpl σ) (s : σ) (k : Nat) (default : Option Nat) :
    dictStep D s (.pop k default) =
      match D.getEntry s k with
      | none => s
      | some e => D.removeEntry s e := by
  show (match pop D s k default with | .ok (_, s') => s' | .error _ => s) = _
  unfold pop
  cases h0 : D.getEntry s k <;> cases default <;> rfl

/-- Every public mutating operation preserves key uniqueness on the hash
dictionary. -/
theorem hash_dictStep_nodup (s : List Entry) (op : DictOp) (h : keysNodup s) :
    keysNodup (dictStep hashImpl s op) := by
  cases op with
  | set k v => exact hash_setItem_nodup s k v h
  | upd k v => exact hash_setItem_nodup s k v h
  | setdefault k d =>
    show keysNodup (setdefault hashImpl s k d).2
    rw [setdefault_snd]
    cases h0 : hashImpl.getEntry s k with
    | none => exact hashAddEntry_nodup _ h
    | some e => exact h
  | pop k default =>
    rw [dictStep_pop]
    cases h0 : hashImpl.getEntry s k with
    | none => exact h
    | some e => exact keysNodup_eraseP _ h

/-- Every public mutating operation preserves the strict key ordering on
the sorted dictionary. -/
theorem sorted_dictStep_sorted (s : List Entry) (op : DictOp) (h : sortedKeys s) :
    sortedKeys (dictStep sortedImpl s op) := by
  cases op with
  | set k v => exact sorted_setItem_sorted s k v h
  | upd k v => exact sorted_setItem_sorted s k v h
  | setdefault k d =>
    show sortedKeys (setdefault sortedImpl s k d).2
    rw [setdefault_snd]
    cases h0 : sortedImpl.getEntry s k with
    | none => exact sortedAddEntry_sorted _ h
    | some e => exact h
  | pop k default =>
    rw [dictStep_pop]
    cases h0 : sortedImpl.getEntry s k with
    | none => exact h
    | some e => exact sortedKeys_eraseP _ h

theorem dictRun_inv (D : DictImpl σ) (P : σ → Prop)
    (hstep : ∀ s op, P s → P (dictStep D s op)) :
    ∀ (ops : List DictOp) (s : σ), P s → P (dictRun D s ops) := by
  intro ops
  induction ops with
  | nil => exact fun s h => h
  | cons op rest ih => exact fun s h => ih _ (hstep s op h)

/-! ### Claim theorems -/

/-- C2: Uniqueness invariant — for every sequence of public operations
(set, update, setdefault, pop, indexed write) applied to an initially
empty dictionary, neither the hash dictionary nor the sorted dictionary
ever holds two entries with equal keys: at every observation point the
stored keys are pairwise distinct. -/
theorem uniqueness_invariant (ops : List DictOp) :
    keysNodup (dictRun hashImpl [] ops) ∧ keysNodup (dictRun sortedImpl [] ops) :=
  ⟨dictRun_inv hashImpl keysNodup hash_dictStep_nodup ops [] (by simp [keysNodup]),
   sortedKeys_keysNodup
     (dictRun_inv sortedImpl sortedKeys sorted_dictStep_sorted ops []
       (by simp [sortedKeys]))⟩

/-- C4: SortedDictionary ordering invariant — after every sequence of
public operations from the empty dictionary, the stored entries are in
strictly increasing key order, hence `keys()` (and the first components of
`items()`) form a strictly increasing list. -/
theorem sorted_ordering_invariant (ops : List DictOp) :
    sortedKeys (dictRun sortedImpl [] ops) ∧
    List.Sorted (· < ·) (keysOf sortedImpl (dictRun sortedImpl [] ops)) ∧
    List.Sorted (· < ·) ((items sortedImpl (dictRun sortedImpl [] ops)).map Prod.fst) := by
  have hs : sortedKeys (dictRun sortedImpl [] ops) :=
    dictRun_inv sortedImpl sortedKeys sorted_dictStep_sorted ops [] (by simp [sortedKeys])
  refine ⟨hs, ?_, ?_⟩
  · show List.Pairwise _ _
    unfold keysOf
    exact List.pairwise_map.mpr hs
  · show List.Pairwise _ _
    unfold items
    rw [List.map_map]
    exact List.pairwise_map.mpr hs

/-- C1: Replace semantics — on both dictionaries, `set(k, v1); set(k, v2)`
yields `get(k) = v2` with `len()` unchanged by the second call, a single
`set(k, v)` yields `get(k) = v`, and `update` is the same function as
`set`. -/
theorem replace_semantics (s t : List Entry) (k v v1 v2 : Nat)
    (hn : keysNodup s) (hs : sortedKeys t) :
    (getD hashImpl (setItem hashImpl (setItem hashImpl s k v1) k v2) k none = some v2 ∧
     dictLen hashImpl (setItem hashImpl (setItem hashImpl s k v1) k v2)
       = dictLen hashImpl (setItem hashImpl s k v1) ∧
     getD hashImpl (setItem hashImpl s k v) k none = some v) ∧
    (getD sortedImpl (setItem sortedImpl (setItem sortedImpl t k v1) k v2) k none = some v2 ∧
     dictLen sortedImpl (setItem sortedImpl (setItem sortedImpl t k v1) k v2)
       = dictLen sortedImpl (setItem sortedImpl t k v1) ∧
     getD sortedImpl (setItem sortedImpl t k v) k none = some v) ∧
    (∀ (u : List Entry) (k' v' : Nat),
      update hashImpl u k' v' = setItem hashImpl u k' v' ∧
      update sortedImpl u k' v' = setItem sortedImpl u k' v') := by
  have hn1 : keysNodup (setItem hashImpl s k v1) := hash_setItem_nodup s k v1 hn
  have hg1 : hashGetEntry (setItem hashImpl s k v1) k = some ⟨k, v1⟩ :=
    hash_set_getEntry s k v1 hn
  have hs1 : sortedKeys (setItem sortedImpl t k v1) := sorted_setItem_sorted t k v1 hs
  have hg1s : sortedGetEntry (setItem sortedImpl t k v1) k = some ⟨k, v1⟩ :=
    sorted_set_getEntry t k v1 hs
  refine ⟨⟨?_, ?_, ?_⟩, ⟨?_, ?_, ?_⟩, fun u k' v' => ⟨rfl, rfl⟩⟩
  · show valueOrDefault (hashGetEntry (setItem hashImpl (setItem hashImpl s k v1) k v2) k)
        none = some v2
    rw [hash_set_getEntry _ k v2 hn1]
    rfl
  · show (setItem hashImpl (setItem hashImpl s k v1) k v2).length
        = (setItem hashImpl s k v1).length
    refine hash_setItem_len_present _ k v2 hn1 ?_
    rw [keyMem_true_iff]
    exact ⟨⟨k, v1⟩, (hashGetEntry_some hg1).1, rfl⟩
  · show valueOrDefault (hashGetEntry (setItem hashImpl s k v) k) none = some v
    rw [hash_set_getEntry s k v hn]
    rfl
  · show valueOrDefault (sortedGetEntry (setItem sortedImpl (setItem sortedImpl t k v1) k v2) k)
        none = some v2
    rw [sorted_set_getEntry _ k v2 hs1]
    rfl
  · show (setItem sortedImpl (setItem sortedImpl t k v1) k v2).length
        = (setItem sortedImpl t k v1).length
    refine sorted_setItem_len_present _ k v2 hs1 ?_
    rw [keyMem_true_iff]
    exact ⟨⟨k, v1⟩, (sortedGetEntry_some hs1 hg1s).1, rfl⟩
  · show valueOrDefault (sortedGetEntry (setItem sortedImpl t k v) k) none = some v
    rw [sorted_set_getEntry t k v hs]
    rfl

/-- Witness for C1 at a concrete input. -/
theorem replace_semantics_witness :
    keysNodup [Entry.mk 7 70] ∧ sortedKeys [Entry.mk 2 20, Entry.mk 5 50] ∧
    getD hashImpl (setItem hashImpl (setItem hashImpl [Entry.mk 7 70] 3 1) 3 2) 3 none
      = some 2 ∧
    getD sortedImpl (setItem sortedImpl [Entry.mk 2 20, Entry.mk 5 50] 3 9) 3 none
      = some 9 :=
  ⟨by decide, by decide,
   (replace_semantics [Entry.mk 7 70] [Entry.mk 2 20, Entry.mk 5 50] 9 9 1 2
     (by decide) (by decide)).1.1,
   (replace_semantics [Entry.mk 7 70] [Entry.mk 2 20, Entry.mk 5 50] 3 9 1 2
     (by decide) (by decide)).2.1.2.2⟩

/-- C5: Bisect boundary semantics — on every sorted state and every key,
present or absent, `bisect_left` counts the stored keys strictly below the
probe and `bisect_right` counts those not above it. -/
theorem bisect_boundary_semantics (s : List Entry) (k : Nat) (hs : sortedKeys s) :
    bisectLeft s k = (s.map Entry.key).countP (fun a => a < k) ∧
    bisectRight s k = (s.map Entry.key).countP (fun a => a ≤ k) := by
  induction s with
  | nil => exact ⟨rfl, rfl⟩
  | cons e rest ih =>
    have hhead := (List.pairwise_cons.mp hs).1
    have htail := (List.pairwise_cons.mp hs).2
    obtain ⟨ihl, ihr⟩ := ih htail
    constructor
    · by_cases h : e.key < k
      · simp only [bisectLeft, if_pos h, List.map_cons, List.countP_cons]
        simp [h, ihl]
      · simp only [bisectLeft, if_neg h, List.map_cons, List.countP_cons]
        have hz : (rest.map Entry.key).countP (fun a => a < k) = 0 := by
          rw [List.countP_eq_zero]
          intro a ha
          simp only [List.mem_map] at ha
          obtain ⟨x, hx, rfl⟩ := ha
          have := hhead x hx
          simp only [decide_eq_true_eq]
          omega
        rw [hz]
        simp [h]
    · by_cases h : e.key ≤ k
      · simp only [bisectRight, if_pos h, List.map_cons, List.countP_cons]
        simp [h, ihr]
      · simp only [bisectRight, if_neg h, List.map_cons, List.countP_cons]
        have hz : (rest.map Entry.key).countP (fun a => a ≤ k) = 0 := by
          rw [List.countP_eq_zero]
          intro a ha
          simp only [List.mem_map] at ha
          obtain ⟨x, hx, rfl⟩ := ha
          have := hhead x hx
          simp only [decide_eq_true_eq]
          omega
        rw [hz]
        simp [h]

/-- Witness for C5 at a concrete input (key present and key absent). -/
theorem bisect_boundary_semantics_witness :
    sortedKeys [Entry.mk 1 10, Entry.mk 3 30] ∧
    bisectLeft [Entry.mk 1 10, Entry.mk 3 30] 3
      = ([Entry.mk 1 10, Entry.mk 3 30].map Entry.key).countP (fun a => a < 3) ∧
    bisectRight [Entry.mk 1 10, Entry.mk 3 30] 2
      = ([Entry.mk 1 10, Entry.mk 3 30].map Entry.key).countP (fun a => a ≤ 2) :=
  ⟨by decide,
   (bisect_boundary_semantics [Entry.mk 1 10, Entry.mk 3 30] 3 (by decide)).1,
   (bisect_boundary_semantics [Entry.mk 1 10, Entry.mk 3 30] 2 (by decide)).2⟩

/-- Shared proof of the raise-iff-absent and pop behaviour, generic in a
storage strategy whose lookup/remove primitives behave like the two
concrete ones. -/
theorem dict_error_spec (D : DictImpl (List Entry)) (s : List Entry) (k d : Nat)
    (hrem : ∀ (u : List Entry) (e : Entry),
      D.removeEntry u e = u.eraseP (fun x => x.key == e.key))
    (hnone : D.getEntry s k = none ↔ keyMem s k = false)
    (hsome : ∀ e, D.getEntry s k = some e → e ∈ s ∧ e.key = k)
    (hn : keysNodup s) :
    (getItem D s k = .error () ↔ keyMem s k = false) ∧
    (pop D s k none = .error () ↔ keyMem s k = false) ∧
    (keyMem s k = false → pop D s k (some d) = .ok (d, s)) ∧
    (∀ v, getItem D s k = .ok v →
      ∃ s', pop D s k none = .ok (v, s') ∧ keyMem s' k = false ∧
        s'.length + 1 = s.length ∧ ∀ e ∈ s', e ∈ s) := by
  cases h0 : D.getEntry s k with
  | none =>
    have habs := hnone.mp h0
    have hget : getItem D s k = .error () := by
      unfold getItem
      rw [h0]
    have hpop : pop D s k none = .error () := by
      unfold pop
      rw [h0]
    have hpopd : pop D s k (some d) = .ok (d, s) := by
      unfold pop
      rw [h0]
    refine ⟨⟨fun _ => habs, fun _ => hget⟩, ⟨fun _ => habs, fun _ => hpop⟩,
      fun _ => hpopd, ?_⟩
    intro v hv
    rw [hget] at hv
    exact absurd hv (by simp)
  | some e =>
    obtain ⟨hmem, hkey⟩ := hsome e h0
    have hpres : keyMem s k = true := (keyMem_true_iff s k).mpr ⟨e, hmem, hkey⟩
    have hget : getItem D s k = .ok e.value := by
      unfold getItem
      rw [h0]
    have hpop : pop D s k none = .ok (e.value, D.removeEntry s e) := by
      unfold pop
      rw [h0]
    refine ⟨?_, ?_, ?_, ?_⟩
    · constructor
      · intro hx
        rw [hget] at hx
        exact absurd hx (by simp)
      · intro hx
        rw [hpres] at hx
        exact absurd hx (by simp)
    · constructor
      · intro hx
        rw [hpop] at hx
        exact absurd hx (by simp)
      · intro hx
        rw [hpres] at hx
        exact absurd hx (by simp)
    · intro hx
      rw [hpres] at hx
      exact absurd hx (by simp)
    · intro v hv
      rw [hget] at hv
      have hveq : v = e.value := by
        injection hv with hv1
        exact hv1.symm
      subst hveq
      refine ⟨D.removeEntry s e, hpop, ?_, ?_, ?_⟩
      · rw [hrem s e, hkey]
        exact eraseP_key_not_mem k hn
      · rw [hrem s e]
        have hlen : (s.eraseP (fun x => x.key == e.key)).length = s.length - 1 :=
          List.length_eraseP_of_mem hmem (by simp)
        have hpos : 0 < s.length := List.length_pos.mpr (List.ne_nil_of_mem hmem)
        omega
      · intro x hx
        rw [hrem s e] at hx
        exact List.mem_of_mem_eraseP hx

/-- C6: `KeyNotFound` raises-iff and pop atomicity — on both dictionaries,
indexed read raises iff the key is absent; `pop` with no default raises iff
absent; `pop` with a default on an absent key returns the default with the
state exactly unchanged; `pop` on a present key removes that single entry
and returns its stored value. -/
theorem keynotfound_pop_semantics (s t : List Entry) (k d : Nat)
    (hn : keysNodup s) (hs : sortedKeys t) :
    ((getItem hashImpl s k = .error () ↔ keyMem s k = false) ∧
     (pop hashImpl s k none = .error () ↔ keyMem s k = false) ∧
     (keyMem s k = false → pop hashImpl s k (some d) = .ok (d, s)) ∧
     (∀ v, getItem hashImpl s k = .ok v →
       ∃ s', pop hashImpl s k none = .ok (v, s') ∧ keyMem s' k = false ∧
         s'.length + 1 = s.length ∧ ∀ e ∈ s', e ∈ s)) ∧
    ((getItem sortedImpl t k = .error () ↔ keyMem t k = false) ∧
     (pop sortedImpl t k none = .error () ↔ keyMem t k = false) ∧
     (keyMem t k = false → pop sortedImpl t k (some d) = .ok (d, t)) ∧
     (∀ v, getItem sortedImpl t k = .ok v →
       ∃ t', pop sortedImpl t k none = .ok (v, t') ∧ keyMem t' k = false ∧
         t'.length + 1 = t.length ∧ ∀ e ∈ t', e ∈ t)) :=
  ⟨dict_error_spec hashImpl s k d (fun _ _ => rfl) (hashGetEntry_none_iff s k)
     (fun _ h => hashGetEntry_some h) hn,
   dict_error_spec sortedImpl t k d (fun _ _ => rfl) (sortedGetEntry_none_iff t k hs)
     (fun _ h => sortedGetEntry_some hs h) (sortedKeys_keysNodup hs)⟩

/-- Witness for C6 at a concrete input. -/
theorem keynotfound_pop_semantics_witness :
    keysNodup [Entry.mk 4 40] ∧ sortedKeys [Entry.mk 4 40] ∧
    (getItem hashImpl [Entry.mk 4 40] 9 = .error () ↔
      keyMem [Entry.mk 4 40] 9 = false) ∧
    (keyMem [Entry.mk 4 40] 9 = false →
      pop sortedImpl [Entry.mk 4 40] 9 (some 7) = .ok (7, [Entry.mk 4 40])) :=
  ⟨by decide, by decide,
   (keynotfound_pop_semantics [Entry.mk 4 40] [Entry.mk 4 40] 9 7
     (by decide) (by decide)).1.1,
   (keynotfound_pop_semantics [Entry.mk 4 40] [Entry.mk 4 40] 9 7
     (by decide) (by decide)).2.2.2.1⟩

/-- C7: `peekitem` indexing and bounds — on a sorted dictionary state it
raises `IndexOutOfRange` exactly when the index is outside `[-size, size)`,
returns the pair at position `i` of the stored (sorted) order for
`0 ≤ i < size`, and the pair at position `size + i` for `-size ≤ i < 0`. -/
theorem peekitem_spec (s : List Entry) (ind : Int) (hs : sortedKeys s) :
    (peekitem s ind = .error () ↔
      ind < -(s.length : Int) ∨ (s.length : Int) ≤ ind) ∧
    (0 ≤ ind → ind < (s.length : Int) →
      ∃ e, s[ind.toNat]? = some e ∧ peekitem s ind = .ok (e.key, e.value)) ∧
    (-(s.length : Int) ≤ ind → ind < 0 →
      ∃ e, s[((s.length : Int) + ind).toNat]? = some e ∧
        peekitem s ind = .ok (e.key, e.value)) := by
  by_cases hb : ind < -(s.length : Int) ∨ (s.length : Int) ≤ ind
  · have herr : peekitem s ind = .error () := by
      unfold peekitem
      rw [if_pos hb]
    refine ⟨⟨fun _ => hb, fun _ => herr⟩, ?_, ?_⟩
    · intro h1 h2
      exfalso
      rcases hb with hb | hb <;> omega
    · intro h1 h2
      exfalso
      rcases hb with hb | hb <;> omega
  · push_neg at hb
    obtain ⟨h1, h2⟩ := hb
    have hb' : ¬(ind < -(s.length : Int) ∨ (s.length : Int) ≤ ind) := by
      push_neg
      exact ⟨h1, h2⟩
    by_cases hneg : ind < 0
    · have hilt : ((s.length : Int) + ind).toNat < s.length := by omega
      obtain ⟨e, he⟩ : ∃ e, s[((s.length : Int) + ind).toNat]? = some e := by
        rw [List.getElem?_eq_getElem hilt]
        exact ⟨_, rfl⟩
      have hpeek : peekitem s ind = .ok (e.key, e.value) := by
        unfold peekitem
        rw [if_neg hb', if_pos hneg, he]
      refine ⟨⟨fun hc => ?_, fun hc => ?_⟩, fun hc _ => by omega, fun _ _ => ?_⟩
      · rw [hpeek] at hc
        exact absurd hc (by simp)
      · exact absurd hc hb'
      · exact ⟨e, he, hpeek⟩
    · push_neg at hneg
      have hilt : ind.toNat < s.length := by omega
      obtain ⟨e, he⟩ : ∃ e, s[ind.toNat]? = some e := by
        rw [List.getElem?_eq_getElem hilt]
        exact ⟨_, rfl⟩
      have hpeek : peekitem s ind = .ok (e.key, e.value) := by
        unfold peekitem
        rw [if_neg hb', if_neg (by omega : ¬ind < 0), he]
      refine ⟨⟨fun hc => ?_, fun hc => ?_⟩, fun _ _ => ?_, fun _ hc => by omega⟩
      · rw [hpeek] at hc
        exact absurd hc (by simp)
      · exact absurd hc hb'
      · exact ⟨e, he, hpeek⟩

/-- Witness for C7 at concrete inputs (in range, negative, and the
out-of-range bound `size`). -/
theorem peekitem_spec_witness :
    sortedKeys [Entry.mk 1 10, Entry.mk 3 30] ∧
    (∃ e, [Entry.mk 1 10, Entry.mk 3 30][(((2 : Nat) : Int) + -1).toNat]? = some e ∧
      peekitem [Entry.mk 1 10, Entry.mk 3 30] (-1) = .ok (e.key, e.value)) ∧
    (peekitem [Entry.mk 1 10, Entry.mk 3 30] 2 = .error () ↔
      (2 : Int) < -((2 : Nat) : Int) ∨ ((2 : Nat) : Int) ≤ 2) := by
  refine ⟨by decide, ?_, ?_⟩
  · have h := (peekitem_spec [Entry.mk 1 10, Entry.mk 3 30] (-1) (by decide)).2.2
      (by norm_num) (by norm_num)
    simpa using h
  · exact (peekitem_spec [Entry.mk 1 10, Entry.mk 3 30] 2 (by decide)).1

theorem subset_sortedAddEntry {s : List Entry} {x : Entry} (e : Entry)
    (h : x ∈ s) : x ∈ sortedAddEntry s e := by
  induction s with
  | nil => exact absurd h (List.not_mem_nil x)
  | cons y rest ih =>
    by_cases h1 : e.key < y.key
    · simp only [sortedAddEntry, if_pos h1]
      exact List.mem_cons_of_mem e h
    · by_cases h2 : e.key = y.key
      · simp only [sortedAddEntry, if_neg h1, if_pos h2]
        exact h
      · simp only [sortedAddEntry, if_neg h1, if_neg h2]
        rcases List.mem_cons.mp h with rfl | h3
        · exact List.mem_cons_self x _
        · exact List.mem_cons_of_mem y (ih h3)

/-- C9: setdefault semantics and frame — on both dictionaries,
`setdefault(k, d)` on a present key returns the stored value and leaves the
state exactly unchanged (order included); on an absent key it inserts the
entry `(k, d)` and returns `d`. -/
theorem setdefault_semantics (s t : List Entry) (k d : Nat)
    (hs : sortedKeys t) :
    (∀ e, hashGetEntry s k = some e →
      setdefault hashImpl s k d = (e.value, s) ∧ getItem hashImpl s k = .ok e.value) ∧
    (keyMem s k = false →
      setdefault hashImpl s k d = (d, s ++ [⟨k, d⟩]) ∧
      hashGetEntry (s ++ [⟨k, d⟩]) k = some ⟨k, d⟩) ∧
    (∀ e, sortedGetEntry t k = some e →
      setdefault sortedImpl t k d = (e.value, t) ∧ getItem sortedImpl t k = .ok e.value) ∧
    (keyMem t k = false →
      (setdefault sortedImpl t k d).1 = d ∧
      (setdefault sortedImpl t k d).2 = sortedAddEntry t ⟨k, d⟩ ∧
      sortedGetEntry (setdefault sortedImpl t k d).2 k = some ⟨k, d⟩ ∧
      (setdefault sortedImpl t k d).2.length = t.length + 1 ∧
      ∀ e ∈ t, e ∈ (setdefault sortedImpl t k d).2) := by
  refine ⟨?_, ?_, ?_, ?_⟩
  · intro e he
    have he' : hashImpl.getEntry s k = some e := he
    constructor
    · unfold setdefault
      rw [he']
      rfl
    · unfold getItem
      rw [he']
  · intro habs
    have he' : hashImpl.getEntry s k = none := (hashGetEntry_none_iff s k).mpr habs
    have hstate : setdefault hashImpl s k d = (d, s ++ [⟨k, d⟩]) := by
      unfold setdefault
      rw [he']
      show (d, hashAddEntry s ⟨k, d⟩) = (d, s ++ [⟨k, d⟩])
      rw [hashAddEntry_absent habs]
    exact ⟨hstate, hashGetEntry_append_self s ⟨k, d⟩ habs⟩
  · intro e he
    have he' : sortedImpl.getEntry t k = some e := he
    constructor
    · unfold setdefault
      rw [he']
      rfl
    · unfold getItem
      rw [he']
  · intro habs
    have he' : sortedImpl.getEntry t k = none := (sortedGetEntry_none_iff t k hs).mpr habs
    have hsnd : (setdefault sortedImpl t k d).2 = sortedAddEntry t ⟨k, d⟩ := by
      rw [setdefault_snd, he']
      rfl
    have hfst : (setdefault sortedImpl t k d).1 = d := by
      unfold setdefault
      rw [he']
      rfl
    have hsorted : sortedKeys (sortedAddEntry t ⟨k, d⟩) := sortedAddEntry_sorted _ hs
    refine ⟨hfst, hsnd, ?_, ?_, ?_⟩
    · rw [hsnd, sortedGetEntry_eq_find _ _ hsorted]
      exact sortedAddEntry_find_self ⟨k, d⟩ habs
    · rw [hsnd]
      exact sortedAddEntry_len_absent ⟨k, d⟩ habs
    · intro e he
      rw [hsnd]
      exact subset_sortedAddEntry ⟨k, d⟩ he

/-- Witness for C9 at a concrete input (present and absent key). -/
theorem setdefault_semantics_witness :
    sortedKeys [Entry.mk 2 20] ∧
    hashGetEntry [Entry.mk 2 20] 2 = some (Entry.mk 2 20) ∧
    setdefault hashImpl [Entry.mk 2 20] 2 99 = (20, [Entry.mk 2 20]) ∧
    (keyMem [Entry.mk 2 20] 5 = false →
      setdefault hashImpl [Entry.mk 2 20] 5 99
        = (99, [Entry.mk 2 20, Entry.mk 5 99])) :=
  ⟨by decide, by decide,
   ((setdefault_semantics [Entry.mk 2 20] [Entry.mk 2 20] 2 99 (by decide)).1
     (Entry.mk 2 20) (by decide)).1,
   fun h => ((setdefault_semantics [Entry.mk 2 20] [Entry.mk 2 20] 5 99
     (by decide)).2.1 h).1⟩

/-! ### Cache lemmas -/

theorem cacheMem_false_iff (d : List (Nat × Nat)) (k : Nat) :
    cacheMem d k = false ↔ ∀ p ∈ d, p.1 ≠ k := by
  simp [cacheMem]

theorem cacheMem_true_iff (d : List (Nat × Nat)) (k : Nat) :
    cacheMem d k = true ↔ ∃ p ∈ d, p.1 = k := by
  simp [cacheMem]

theorem cacheMem_cons (p : Nat × Nat) (l : List (Nat × Nat)) (j : Nat) :
    cacheMem (p :: l) j = ((p.1 == j) || cacheMem l j) := by
  simp [cacheMem]

theorem cacheMem_of_cons {p : Nat × Nat} {rest : List (Nat × Nat)} {k : Nat}
    (h : cacheMem (p :: rest) k = true) (hp : p.1 ≠ k) :
    cacheMem rest k = true := by
  rw [cacheMem_cons] at h
  simpa [hp] using h

theorem odSet_absent {d : List (Nat × Nat)} {k : Nat} (v : Nat)
    (h : cacheMem d k = false) : odSet d k v = d ++ [(k, v)] := by
  induction d with
  | nil => rfl
  | cons p rest ih =>
    have hp : p.1 ≠ k := (cacheMem_false_iff _ _).mp h p (List.mem_cons_self p rest)
    have hrest : cacheMem rest k = false := by
      rw [cacheMem_false_iff] at h ⊢
      intro q hq
      exact h q (List.mem_cons_of_mem p hq)
    simp only [odSet, if_neg hp, List.cons_append]
    rw [ih hrest]

theorem odSet_find_self (d : List (Nat × Nat)) (k v : Nat) :
    (odSet d k v).find? (fun p => p.1 == k) = some (k, v) := by
  induction d with
  | nil => simp [odSet]
  | cons p rest ih =>
    by_cases hp : p.1 = k
    · rw [show odSet (p :: rest) k v = (k, v) :: rest from by simp [odSet, hp]]
      rw [List.find?_cons_of_pos _ (by simp)]
    · rw [show odSet (p :: rest) k v = p :: odSet rest k v from by simp [odSet, hp]]
      rw [List.find?_cons_of_neg _ (by simp [hp])]
      exact ih

theorem odSet_mem_keys (d : List (Nat × Nat)) (k v j : Nat)
    (h : cacheMem d k = true) :
    cacheMem (odSet d k v) j = cacheMem d j := by
  induction d with
  | nil => simp [cacheMem] at h
  | cons p rest ih =>
    by_cases hp : p.1 = k
    · rw [show odSet (p :: rest) k v = (k, v) :: rest from by simp [odSet, hp]]
      rw [cacheMem_cons, cacheMem_cons, hp]
    · rw [show odSet (p :: rest) k v = p :: odSet rest k v from by simp [odSet, hp]]
      rw [cacheMem_cons, cacheMem_cons, ih (cacheMem_of_cons h hp)]

theorem odSet_length_present (d : List (Nat × Nat)) (k v : Nat)
    (h : cacheMem d k = true) :
    (odSet d k v).length = d.length := by
  induction d with
  | nil => simp [cacheMem] at h
  | cons p rest ih =>
    by_cases hp : p.1 = k
    · simp [odSet, hp]
    · simp only [odSet, if_neg hp, List.length_cons]
      rw [ih (cacheMem_of_cons h hp)]

theorem find?_fst_some {d : List (Nat × Nat)} {k : Nat} {p : Nat × Nat}
    (h : d.find? (fun q => q.1 == k) = some p) : p ∈ d ∧ p.1 = k := by
  refine ⟨List.mem_of_find?_eq_some h, ?_⟩
  have := List.find?_some h
  simpa using this

theorem moveToEnd_of_find {d : List (Nat × Nat)} {k : Nat} {p : Nat × Nat}
    (h : d.find? (fun q => q.1 == k) = some p) :
    moveToEnd d k = d.eraseP (fun q => q.1 == k) ++ [p] := by
  unfold moveToEnd
  rw [h]

theorem moveToEnd_length (d : List (Nat × Nat)) (k : Nat) :
    (moveToEnd d k).length = d.length := by
  unfold moveToEnd
  cases h : d.find? (fun q => q.1 == k) with
  | none => rfl
  | some p =>
    obtain ⟨hmem, hk⟩ := find?_fst_some h
    rw [List.length_append, List.length_eraseP_of_mem hmem (by simp [hk])]
    have hpos : 0 < d.length := List.length_pos.mpr (List.ne_nil_of_mem hmem)
    simp only [List.length_cons, List.length_nil]
    omega

theorem moveToEnd_mem (d : List (Nat × Nat)) (k j : Nat) :
    cacheMem (moveToEnd d k) j = cacheMem d j := by
  unfold moveToEnd
  cases h : d.find? (fun q => q.1 == k) with
  | none => rfl
  | some p =>
    obtain ⟨hmem, hk⟩ := find?_fst_some h
    rw [Bool.eq_iff_iff, cacheMem_true_iff, cacheMem_true_iff]
    constructor
    · rintro ⟨q, hq, hqj⟩
      rcases List.mem_append.mp hq with hq1 | hq2
      · exact ⟨q, List.mem_of_mem_eraseP hq1, hqj⟩
      · simp only [List.mem_singleton] at hq2
        subst hq2
        exact ⟨q, hmem, hqj⟩
    · rintro ⟨q, hq, hqj⟩
      by_cases hqk : q.1 = k
      · refine ⟨p, List.mem_append_right _ (List.mem_singleton.mpr rfl), ?_⟩
        rw [hk, ← hqk, hqj]
      · refine ⟨q, List.mem_append_left _ ?_, hqj⟩
        rw [List.mem_eraseP_of_neg (by simp [hqk])]
        exact hq

theorem moveToEnd_getLast {d : List (Nat × Nat)} {k : Nat} {p : Nat × Nat}
    (h : d.find? (fun q => q.1 == k) = some p) :
    (moveToEnd d k).getLast? = some p := by
  rw [moveToEnd_of_find h]
  exact List.getLast?_concat _

theorem cacheSet_present (c : Cache) (k v : Nat) (h : cacheMem c.data k = true) :
    cacheSet c k v = ⟨moveToEnd (odSet c.data k v) k, c.maxsize⟩ := by
  unfold cacheSet
  rw [if_neg]
  intro hc
  rw [h] at hc
  exact absurd hc.1 (by simp)

theorem moveToEnd_append_absent (c : Cache) (k v : Nat)
    (h : cacheMem c.data k = false) :
    moveToEnd (odSet c.data k v) k = c.data ++ [(k, v)] := by
  have hfindnone : c.data.find? (fun q => q.1 == k) = none := by
    rw [List.find?_eq_none]
    intro q hq
    simp only [beq_iff_eq]
    exact (cacheMem_false_iff _ _).mp h q hq
  have hfind : (c.data ++ [(k, v)]).find? (fun q => q.1 == k) = some (k, v) := by
    rw [find?_append_of_none _ _ _ hfindnone]
    simp
  rw [odSet_absent v h, moveToEnd_of_find hfind,
    List.eraseP_append_right [(k, v)]
      (by intro a ha; simpa using (cacheMem_false_iff _ _).mp h a ha)]
  simp

theorem cacheSet_absent_evict (c : Cache) (k v : Nat)
    (h : cacheMem c.data k = false)
    (hlen : c.maxsize < (c.data.length : Int) + 1) :
    cacheSet c k v = ⟨(c.data ++ [(k, v)]).tail, c.maxsize⟩ := by
  unfold cacheSet
  rw [moveToEnd_append_absent c k v h]
  rw [if_pos]
  refine ⟨h, ?_⟩
  simp only [List.length_append, List.length_cons, List.length_nil]
  push_cast
  omega

theorem cacheSet_absent_fit (c : Cache) (k v : Nat)
    (h : cacheMem c.data k = false)
    (hlen : ¬c.maxsize < (c.data.length : Int) + 1) :
    cacheSet c k v = ⟨c.data ++ [(k, v)], c.maxsize⟩ := by
  unfold cacheSet
  rw [moveToEnd_append_absent c k v h]
  rw [if_neg]
  intro hc
  apply hlen
  have := hc.2
  simp only [List.length_append, List.length_cons, List.length_nil] at this
  push_cast at this
  omega

theorem cacheGet_ok_iff (c : Cache) (k : Nat) :
    ∀ r c', cacheGet c k = .ok (r, c') →
      c.data.find? (fun q => q.1 == k) = some (k, r) ∧
      c' = ⟨moveToEnd c.data k, c.maxsize⟩ := by
  intro r c' h
  unfold cacheGet at h
  cases hf : c.data.find? (fun q => q.1 == k) with
  | none =>
    rw [hf] at h
    exact absurd h (by simp)
  | some p =>
    rw [hf] at h
    obtain ⟨hmem, hk⟩ := find?_fst_some hf
    have h1 : (p.2, (⟨moveToEnd c.data k, c.maxsize⟩ : Cache)) = (r, c') := by
      injection h
    have hr : p.2 = r := by
      have := congrArg Prod.fst h1
      simpa using this
    have hc : c' = ⟨moveToEnd c.data k, c.maxsize⟩ := by
      have := congrArg Prod.snd h1
      simpa using this.symm
    refine ⟨?_, hc⟩
    obtain ⟨p1, p2⟩ := p
    simp only [Option.some.injEq, Prod.mk.injEq]
    exact ⟨hk, hr⟩

theorem cacheStep_maxsize (c : Cache) (op : CacheOp) :
    (cacheStep c op).maxsize = c.maxsize := by
  cases op with
  | read k =>
    show (match cacheGet c k with | .ok (_, c') => c' | .error _ => c).maxsize
        = c.maxsize
    cases hg : cacheGet c k with
    | error e => rfl
    | ok pr =>
      obtain ⟨r, c'⟩ := pr
      obtain ⟨-, hc⟩ := cacheGet_ok_iff c k r c' hg
      rw [hc]
  | write k v =>
    show (cacheSet c k v).maxsize = c.maxsize
    unfold cacheSet
    split
    · rfl
    · rfl

theorem cacheStep_len_le (c : Cache) (op : CacheOp)
    (h : (c.data.length : Int) ≤ c.maxsize) :
    ((cacheStep c op).data.length : Int) ≤ c.maxsize := by
  cases op with
  | read k =>
    show ((match cacheGet c k with | .ok (_, c') => c' | .error _ => c).data.length : Int)
        ≤ c.maxsize
    cases hg : cacheGet c k with
    | error e => exact h
    | ok pr =>
      obtain ⟨r, c'⟩ := pr
      obtain ⟨-, hc⟩ := cacheGet_ok_iff c k r c' hg
      rw [hc]
      show ((moveToEnd c.data k).length : Int) ≤ c.maxsize
      rw [moveToEnd_length]
      exact h
  | write k v =>
    show ((cacheSet c k v).data.length : Int) ≤ c.maxsize
    cases hm : cacheMem c.data k with
    | true =>
      rw [cacheSet_present c k v hm]
      show ((moveToEnd (odSet c.data k v) k).length : Int) ≤ c.maxsize
      rw [moveToEnd_length, odSet_length_present c.data k v hm]
      exact h
    | false =>
      by_cases hlen : c.maxsize < (c.data.length : Int) + 1
      · rw [cacheSet_absent_evict c k v hm hlen]
        show (((c.data ++ [(k, v)]).tail).length : Int) ≤ c.maxsize
        simp only [List.length_tail, List.length_append, List.length_cons,
          List.length_nil]
        push_cast
        omega
      · rw [cacheSet_absent_fit c k v hm hlen]
        show ((c.data ++ [(k, v)]).length : Int) ≤ c.maxsize
        simp only [List.length_append, List.length_cons, List.length_nil]
        push_cast
        omega

theorem cacheRun_rec (P : Cache → Prop)
    (hstep : ∀ c op, P c → P (cacheStep c op)) :
    ∀ (ops : List CacheOp) (c : Cache), P c → P (ops.foldl cacheStep c) := by
  intro ops
  induction ops with
  | nil => exact fun c h => h
  | cons op rest ih => exact fun c h => ih _ (hstep c op h)

theorem cacheRun_maxsize (m : Int) (ops : List CacheOp) :
    (cacheRun m ops).maxsize = m :=
  cacheRun_rec (fun c => c.maxsize = m)
    (fun c op hc => by show (cacheStep c op).maxsize = m; rw [cacheStep_maxsize]; exact hc)
    ops ⟨[], m⟩ rfl

/-- C3: LRU eviction with recency refresh — after any sequence of reads
and writes on a cache with `maxsize ≥ 1`: a write of an absent key with the
cache at capacity drops exactly the least-recently-used (front) entry and
appends the new pair at the most-recently-used end; a write of a present
key evicts nothing (size and key set unchanged) and makes the key
most-recently-used; a successful read makes the key most-recently-used
without changing size or key set. -/
theorem lru_eviction (m : Int) (ops : List CacheOp) (k v : Nat) (hm : 1 ≤ m) :
    (((cacheRun m ops).data.length : Int) = m →
      cacheMem (cacheRun m ops).data k = false →
      (cacheSet (cacheRun m ops) k v).data
        = (cacheRun m ops).data.tail ++ [(k, v)]) ∧
    (cacheMem (cacheRun m ops).data k = true →
      (cacheSet (cacheRun m ops) k v).data.length = (cacheRun m ops).data.length ∧
      (∀ j, cacheMem (cacheSet (cacheRun m ops) k v).data j
        = cacheMem (cacheRun m ops).data j) ∧
      (cacheSet (cacheRun m ops) k v).data.getLast? = some (k, v)) ∧
    (∀ r c', cacheGet (cacheRun m ops) k = .ok (r, c') →
      c'.data.getLast? = some (k, r) ∧
      c'.data.length = (cacheRun m ops).data.length ∧
      ∀ j, cacheMem c'.data j = cacheMem (cacheRun m ops).data j) := by
  refine ⟨?_, ?_, ?_⟩
  · intro hlen habs
    rw [cacheSet_absent_evict _ _ _ habs (by rw [cacheRun_maxsize]; omega)]
    cases hcd : (cacheRun m ops).data with
    | nil =>
      rw [hcd] at hlen
      simp at hlen
      omega
    | cons p rest => rfl
  · intro hp
    rw [cacheSet_present _ _ _ hp]
    refine ⟨?_, ?_, ?_⟩
    · show (moveToEnd (odSet (cacheRun m ops).data k v) k).length = _
      rw [moveToEnd_length, odSet_length_present _ _ _ hp]
    · intro j
      show cacheMem (moveToEnd (odSet (cacheRun m ops).data k v) k) j = _
      rw [moveToEnd_mem, odSet_mem_keys _ _ _ _ hp]
    · show (moveToEnd (odSet (cacheRun m ops).data k v) k).getLast? = some (k, v)
      exact moveToEnd_getLast (odSet_find_self _ k v)
  · intro r c' hg
    obtain ⟨hf, hc⟩ := cacheGet_ok_iff (cacheRun m ops) k r c' hg
    subst hc
    refine ⟨moveToEnd_getLast hf, ?_, ?_⟩
    · show (moveToEnd (cacheRun m ops).data k).length = _
      rw [moveToEnd_length]
    · intro j
      show cacheMem (moveToEnd (cacheRun m ops).data k) j = _
      rw [moveToEnd_mem]

/-- Witness for C3 at a concrete input: maxsize 2, writes of keys 1 and 2,
then a write of the absent key 3 at capacity and a write of the present
key 1. -/
theorem lru_eviction_witness :
    (1 : Int) ≤ 2 ∧
    (((cacheRun 2 [CacheOp.write 1 1, CacheOp.write 2 2]).data.length : Int) = 2) ∧
    (cacheSet (cacheRun 2 [CacheOp.write 1 1, CacheOp.write 2 2]) 3 30).data
      = (cacheRun 2 [CacheOp.write 1 1, CacheOp.write 2 2]).data.tail ++ [(3, 30)] ∧
    (cacheSet (cacheRun 2 [CacheOp.write 1 1, CacheOp.write 2 2]) 1 7).data.getLast?
      = some (1, 7) :=
  ⟨by decide, by decide,
   (lru_eviction 2 [CacheOp.write 1 1, CacheOp.write 2 2] 3 30 (by decide)).1
     (by decide) (by decide),
   ((lru_eviction 2 [CacheOp.write 1 1, CacheOp.write 2 2] 1 7 (by decide)).2.1
     (by decide)).2.2⟩

/-- C8: BoundedCache capacity invariant — for `maxsize ≥ 1`, after every
sequence of reads and writes from a fresh cache the number of stored
entries never exceeds `maxsize`. -/
theorem capacity_invariant (m : Int) (ops : List CacheOp) (hm : 1 ≤ m) :
    ((cacheRun m ops).data.length : Int) ≤ m := by
  have h := cacheRun_rec
    (fun c => c.maxsize = m ∧ (c.data.length : Int) ≤ m)
    (fun c op hc => by
      refine ⟨?_, ?_⟩
      · rw [cacheStep_maxsize]
        exact hc.1
      · have h2 : (c.data.length : Int) ≤ c.maxsize := by
          rw [hc.1]
          exact hc.2
        have h3 := cacheStep_len_le c op h2
        rwa [hc.1] at h3)
    ops ⟨[], m⟩ ⟨rfl, by simp; omega⟩
  exact h.2

/-- Witness for C8 at a concrete input. -/
theorem capacity_invariant_witness :
    (1 : Int) ≤ 2 ∧
    ((cacheRun 2 [CacheOp.write 1 1, CacheOp.write 2 2, CacheOp.write 3 3,
      CacheOp.read 2]).data.length : Int) ≤ 2 :=
  ⟨by decide,
   capacity_invariant 2 [CacheOp.write 1 1, CacheOp.write 2 2, CacheOp.write 3 3,
     CacheOp.read 2] (by decide)⟩

/-- C10: Unvalidated maxsize edge case — the constructor stores any
integer `maxsize` unchecked; for `maxsize ≤ 0` every write of a (then
necessarily new) key is followed by an immediate eviction in the same
operation, so after every sequence of reads and writes the cache is empty
and every read raises `KeyError`. -/
theorem nonpositive_maxsize (m : Int) (ops : List CacheOp) (hm : m ≤ 0) :
    (cacheRun m ops).data = [] ∧
    (∀ k v, (cacheSet (cacheRun m ops) k v).data = []) ∧
    (∀ k, cacheGet (cacheRun m ops) k = .error ()) := by
  have hset : ∀ c : Cache, c.maxsize = m → c.data = [] →
      ∀ k v, (cacheSet c k v).data = [] := by
    intro c hcm hcd k v
    have habs : cacheMem c.data k = false := by
      rw [hcd]
      rfl
    have hlen : c.maxsize < (c.data.length : Int) + 1 := by
      rw [hcm, hcd]
      simp
      omega
    rw [cacheSet_absent_evict c k v habs hlen, hcd]
    rfl
  have h : (cacheRun m ops).maxsize = m ∧ (cacheRun m ops).data = [] :=
    cacheRun_rec (fun c => c.maxsize = m ∧ c.data = [])
    (fun c op hc => by
      cases op with
      | read k =>
        have hg : cacheGet c k = .error () := by
          unfold cacheGet
          rw [hc.2]
          rfl
        have hstep : cacheStep c (CacheOp.read k) = c := by
          show (match cacheGet c k with | .ok (_, c') => c' | .error _ => c) = c
          rw [hg]
        rw [hstep]
        exact hc
      | write k v => exact ⟨by rw [cacheStep_maxsize]; exact hc.1, hset c hc.1 hc.2 k v⟩)
    ops ⟨[], m⟩ ⟨rfl, rfl⟩
  refine ⟨h.2, fun k v => hset _ h.1 h.2 k v, fun k => ?_⟩
  unfold cacheGet
  rw [h.2]
  rfl

/-- Witness for C10 at a concrete input (negative maxsize). -/
theorem nonpositive_maxsize_witness :
    (-1 : Int) ≤ 0 ∧
    (cacheRun (-1) [CacheOp.write 1 1, CacheOp.write 2 2, CacheOp.read 1]).data = [] ∧
    cacheGet (cacheRun (-1) [CacheOp.write 1 1, CacheOp.write 2 2, CacheOp.read 1]) 2
      = .error () :=
  ⟨by decide,
   (nonpositive_maxsize (-1) [CacheOp.write 1 1, CacheOp.write 2 2, CacheOp.read 1]
     (by decide)).1,
   (nonpositive_maxsize (-1) [CacheOp.write 1 1, CacheOp.write 2 2, CacheOp.read 1]
     (by decide)).2.2 2⟩

end Spec2Proof
